import Mathlib

/-!
Verification of the `memoizer` crate (`src/lib.rs`).

The crate defines one generic struct:

  pub struct Memoizer<U, V, F> { function: F, map: HashMap<U, V> }

with two operations:

  pub fn new(function: F) -> Memoizer<U, V, F> {
      Memoizer { function, map: HashMap::new() }
  }

  pub fn value(&mut self, arg: U) -> V {
      let f = &self.function;
      let key = arg.clone();
      self.map.entry(key).or_insert_with(|| { (f)(arg) }).clone()
  }

We embed the map as an association list (`HashMap` lookup is by the key
type's equality; iteration order is irrelevant to every operation used).
`entry(key).or_insert_with(g)` returns the stored value when `key` is
present and otherwise inserts `g ()` under `key`; the trailing `.clone()`
duplicates the resulting value.  `value` is therefore a state-passing
function returning the result together with the updated memoizer.
`Clone` for the key/value types in scope produces a value equal to the
original, so at the level of values `clone` is the identity; the aliasing
content of `clone` is modelled separately (`HMemoizer` below) with an
explicit heap of buffers.
-/

/-- Association-list model of `HashMap` lookup: scan for a key equal
(by `DecidableEq`, mirroring the `Eq` bound) to `a`. -/
def mapLookup {U V : Type} [DecidableEq U] : List (U × V) → U → Option V
  | [], _ => none
  | (k, w) :: rest, a => if a = k then some w else mapLookup rest a

/-- The `Memoizer<U, V, F>` struct: the wrapped function and the cache map. -/
structure Memoizer (U V : Type) where
  function : U → V
  map : List (U × V)

/-- `Memoizer::new`: holds `function` together with an empty map. -/
def Memoizer.new {U V : Type} (function : U → V) : Memoizer U V :=
  { function := function, map := [] }

/-- `Memoizer::value`: `self.map.entry(arg.clone()).or_insert_with(|| f(arg)).clone()`.
On a hit the stored value is cloned and returned with the state unchanged; on a
miss `function arg` is computed once, stored under (a clone of) `arg`, and a
clone of the stored value is returned. -/
def Memoizer.value {U V : Type} [DecidableEq U] (m : Memoizer U V) (arg : U) :
    V × Memoizer U V :=
  match mapLookup m.map arg with
  | some w => (w, m)
  | none =>
    let w := m.function arg
    (w, { m with map := (arg, w) :: m.map })

/-- Whether a call `value arg` on state `m` invokes the wrapped function:
`or_insert_with` runs its closure exactly when the entry is vacant. -/
def Memoizer.valueInvokes {U V : Type} [DecidableEq U] (m : Memoizer U V) (arg : U) : Bool :=
  (mapLookup m.map arg).isNone

/-- Run a sequence of `value` calls, keeping only the final state. -/
def Memoizer.run {U V : Type} [DecidableEq U] (m : Memoizer U V) : List U → Memoizer U V
  | [] => m
  | a :: as => ((m.value a).2).run as

/-- The arguments on which the wrapped function is invoked during a
sequence of `value` calls, in order. -/
def Memoizer.runTrace {U V : Type} [DecidableEq U] (m : Memoizer U V) : List U → List U
  | [] => []
  | a :: as => (if m.valueInvokes a then [a] else []) ++ ((m.value a).2).runTrace as

/-- Map invariant: every stored value is the wrapped function at its key. -/
def Memoizer.cacheInv {U V : Type} (m : Memoizer U V) : Prop :=
  ∀ kv ∈ m.map, kv.2 = m.function kv.1

/-!
Heap model for the copy-isolation property (the `heap_returned` test,
`Memoizer<Vec<u32>, Vec<u32>, _>`).  A `Vec<u32>` owns a heap buffer, so we
make the buffers explicit: the state carries a heap (a list of buffers,
addresses are indices) and the map stores the address of the buffer each
cached `Vec` owns.  `value` returns the address of the buffer owned by the
`Vec` handed to the caller; the trailing `.clone()` in the source means this
is always a freshly allocated copy of the cached buffer, never the cached
buffer itself.  `write` models the caller mutating a returned vector in
place (`calculated_v[0] = 23`). -/
structure HMemoizer where
  function : List Nat → List Nat
  map : List (List Nat × Nat)
  heap : List (List Nat)

/-- Contents of the buffer at address `a` (addresses in use are in range). -/
def HMemoizer.readAddr (m : HMemoizer) (a : Nat) : List Nat :=
  m.heap.getD a []

/-- `Memoizer::value` at `V = Vec<u32>`.  Hit: clone the cached vector into a
fresh buffer and return its address.  Miss: compute `function arg`, store it
in a fresh buffer owned by the new map entry, then return a clone of it in a
second fresh buffer. -/
def HMemoizer.value (m : HMemoizer) (arg : List Nat) : Nat × HMemoizer :=
  match mapLookup m.map arg with
  | some addr =>
    (m.heap.length, { m with heap := m.heap ++ [m.readAddr addr] })
  | none =>
    let w := m.function arg
    (m.heap.length + 1,
     { m with
        map := (arg, m.heap.length) :: m.map,
        heap := (m.heap ++ [w]) ++ [w] })

/-- Caller-side in-place mutation of the vector at address `a`: set index `i`
of its buffer to `x`. -/
def HMemoizer.write (m : HMemoizer) (a i x : Nat) : HMemoizer :=
  { m with heap := m.heap.set a ((m.heap.getD a []).set i x) }

/-- Well-formedness: every buffer address stored in the map is in range. -/
def HMemoizer.wf (m : HMemoizer) : Prop :=
  ∀ kv ∈ m.map, kv.2 < m.heap.length

/-- The memoizer of the `heap_returned` test: `|v| { let mut r = vec![3,2,1];
r.extend(v); r }`, starting from an empty cache and heap. -/
def heapTestMemo : HMemoizer :=
  { function := fun v => [3, 2, 1] ++ v, map := [], heap := [] }

theorem value_hit {U V : Type} [DecidableEq U] (m : Memoizer U V) (a : U) (w : V)
    (h : mapLookup m.map a = some w) : m.value a = (w, m) := by
  unfold Memoizer.value
  rw [h]

theorem value_miss {U V : Type} [DecidableEq U] (m : Memoizer U V) (a : U)
    (h : mapLookup m.map a = none) :
    m.value a = (m.function a, { m with map := (a, m.function a) :: m.map }) := by
  unfold Memoizer.value
  rw [h]

theorem value_function_eq {U V : Type} [DecidableEq U] (m : Memoizer U V) (a : U) :
    ((m.value a).2).function = m.function := by
  cases h : mapLookup m.map a with
  | some w => rw [value_hit m a w h]
  | none => rw [value_miss m a h]

theorem mapLookup_cons_self {U V : Type} [DecidableEq U] (a : U) (w : V)
    (rest : List (U × V)) : mapLookup ((a, w) :: rest) a = some w := by
  simp [mapLookup]

theorem value_lookup_mono {U V : Type} [DecidableEq U] (m : Memoizer U V) (a k : U) (w : V)
    (h : mapLookup m.map k = some w) : mapLookup ((m.value a).2).map k = some w := by
  cases hl : mapLookup m.map a with
  | some w' => rw [value_hit m a w' hl]; exact h
  | none =>
    rw [value_miss m a hl]
    show mapLookup ((a, m.function a) :: m.map) k = some w
    rw [mapLookup]
    by_cases hk : k = a
    · subst hk; rw [h] at hl; exact absurd hl (by simp)
    · simp [hk, h]

theorem value_lookup_self {U V : Type} [DecidableEq U] (m : Memoizer U V) (a : U) :
    mapLookup ((m.value a).2).map a = some (m.value a).1 := by
  cases hl : mapLookup m.map a with
  | some w => rw [value_hit m a w hl]; exact hl
  | none => rw [value_miss m a hl]; exact mapLookup_cons_self a (m.function a) m.map

theorem run_lookup_mono {U V : Type} [DecidableEq U] (m : Memoizer U V) (args : List U)
    (k : U) (w : V) (h : mapLookup m.map k = some w) :
    mapLookup ((m.run args)).map k = some w := by
  induction args generalizing m with
  | nil => exact h
  | cons a as ih => exact ih _ (value_lookup_mono m a k w h)

theorem run_function_eq {U V : Type} [DecidableEq U] (m : Memoizer U V) (args : List U) :
    ((m.run args)).function = m.function := by
  induction args generalizing m with
  | nil => rfl
  | cons a as ih => rw [Memoizer.run, ih, value_function_eq]

theorem mem_run_lookup_isSome {U V : Type} [DecidableEq U] (m : Memoizer U V)
    (args : List U) (a : U) (h : a ∈ args) :
    (mapLookup ((m.run args)).map a).isSome = true := by
  induction args generalizing m with
  | nil => cases h
  | cons b bs ih =>
    rw [Memoizer.run]
    rcases List.mem_cons.mp h with hb | hb
    · subst hb
      obtain ⟨w, hw⟩ := Option.isSome_iff_exists.mp
        (Option.isSome_iff_exists.mpr ⟨(m.value a).1, value_lookup_self m a⟩)
      rw [run_lookup_mono _ bs a w hw]
      rfl
    · exact ih _ hb

theorem value_cacheInv {U V : Type} [DecidableEq U] (m : Memoizer U V) (a : U)
    (h : m.cacheInv) : ((m.value a).2).cacheInv := by
  cases hl : mapLookup m.map a with
  | some w => rw [value_hit m a w hl]; exact h
  | none =>
    rw [value_miss m a hl]
    intro kv hkv
    rcases List.mem_cons.mp hkv with hkv | hkv
    · subst hkv; rfl
    · exact h kv hkv

theorem run_cacheInv {U V : Type} [DecidableEq U] (m : Memoizer U V) (args : List U)
    (h : m.cacheInv) : ((m.run args)).cacheInv := by
  induction args generalizing m with
  | nil => exact h
  | cons a as ih =>
    rw [Memoizer.run]
    have h2 : ((m.value a).2).cacheInv := value_cacheInv m a h
    have := ih ((m.value a).2) h2
    intro kv hkv
    exact this kv hkv

theorem new_cacheInv {U V : Type} (f : U → V) : (Memoizer.new f).cacheInv := by
  intro kv hkv
  cases hkv

theorem mapLookup_mem {U V : Type} [DecidableEq U] (l : List (U × V)) (k : U) (w : V)
    (hl : mapLookup l k = some w) : (k, w) ∈ l := by
  induction l with
  | nil => cases hl
  | cons kv rest ih =>
    obtain ⟨k0, w0⟩ := kv
    rw [mapLookup] at hl
    by_cases hk : k = k0
    · rw [if_pos hk] at hl
      injection hl with h
      subst h; subst hk
      exact List.mem_cons_self _ _
    · rw [if_neg hk] at hl
      exact List.mem_cons_of_mem _ (ih hl)

theorem lookup_cacheInv {U V : Type} [DecidableEq U] (m : Memoizer U V) (h : m.cacheInv)
    (k : U) (w : V) (hl : mapLookup m.map k = some w) : w = m.function k :=
  h (k, w) (mapLookup_mem m.map k w hl)

theorem value_lookup_isSome_mono {U V : Type} [DecidableEq U] (m : Memoizer U V) (a k : U)
    (h : (mapLookup m.map k).isSome = true) :
    (mapLookup ((m.value a).2).map k).isSome = true := by
  obtain ⟨w, hw⟩ := Option.isSome_iff_exists.mp h
  rw [value_lookup_mono m a k w hw]
  rfl

theorem valueInvokes_of_lookup_some {U V : Type} [DecidableEq U] (m : Memoizer U V)
    (a : U) (w : V) (h : mapLookup m.map a = some w) : m.valueInvokes a = false := by
  unfold Memoizer.valueInvokes
  rw [h]
  rfl

theorem valueInvokes_of_lookup_none {U V : Type} [DecidableEq U] (m : Memoizer U V)
    (a : U) (h : mapLookup m.map a = none) : m.valueInvokes a = true := by
  unfold Memoizer.valueInvokes
  rw [h]
  rfl

theorem not_mem_runTrace_of_isSome {U V : Type} [DecidableEq U] (m : Memoizer U V)
    (as : List U) (k : U) (h : (mapLookup m.map k).isSome = true) :
    k ∉ m.runTrace as := by
  induction as generalizing m with
  | nil => simp [Memoizer.runTrace]
  | cons b bs ih =>
    rw [Memoizer.runTrace]
    cases hl : mapLookup m.map b with
    | some w =>
      rw [valueInvokes_of_lookup_some m b w hl]
      simp only [Bool.false_eq_true, if_false, List.nil_append]
      exact ih _ (value_lookup_isSome_mono m b k h)
    | none =>
      rw [valueInvokes_of_lookup_none m b hl]
      simp only [if_true, List.singleton_append]
      intro hmem
      rcases List.mem_cons.mp hmem with hk | hk
      · subst hk
        rw [hl] at h
        cases h
      · exact ih _ (value_lookup_isSome_mono m b k h) hk

theorem runTrace_nodup {U V : Type} [DecidableEq U] (m : Memoizer U V) (as : List U) :
    List.Nodup (m.runTrace as) := by
  induction as generalizing m with
  | nil => exact List.nodup_nil
  | cons b bs ih =>
    rw [Memoizer.runTrace]
    cases hl : mapLookup m.map b with
    | some w =>
      rw [valueInvokes_of_lookup_some m b w hl]
      simp only [Bool.false_eq_true, if_false, List.nil_append]
      exact ih _
    | none =>
      rw [valueInvokes_of_lookup_none m b hl]
      simp only [if_true, List.singleton_append]
      refine List.nodup_cons.mpr ⟨?_, ih _⟩
      have hs : (mapLookup ((m.value b).2).map b).isSome = true := by
        rw [value_lookup_self]
        rfl
      exact not_mem_runTrace_of_isSome _ bs b hs

theorem getD_set_of_ne {α : Type} (l : List α) (j k : Nat) (v d : α) (h : j ≠ k) :
    (l.set j v).getD k d = l.getD k d := by
  simp [List.getD_eq_getElem?_getD, List.getElem?_set_ne h]

theorem getD_append_last {α : Type} (l : List α) (c d : α) :
    (l ++ [c]).getD l.length d = c := by
  rw [List.getD_append_right _ _ _ _ (Nat.le_refl _)]
  simp

theorem hvalue_hit (m : HMemoizer) (a : List Nat) (addr : Nat)
    (h : mapLookup m.map a = some addr) :
    m.value a = (m.heap.length, { m with heap := m.heap ++ [m.readAddr addr] }) := by
  unfold HMemoizer.value
  rw [h]

theorem hvalue_miss (m : HMemoizer) (a : List Nat)
    (h : mapLookup m.map a = none) :
    m.value a = (m.heap.length + 1,
      { m with
          map := (a, m.heap.length) :: m.map,
          heap := (m.heap ++ [m.function a]) ++ [m.function a] }) := by
  unfold HMemoizer.value
  rw [h]

/-- Claim C1: for every cache state reachable by a sequence of `value` calls
from a fresh memoizer, calling `value` on an argument equal to one previously
passed never invokes the wrapped function again and returns the value
previously computed for it (`f arg`); moreover the wrapped function is
invoked at most once per distinct argument over the cache's lifetime (the
invocation trace of any run has no duplicates). -/
theorem claim_C1 {U V : Type} [DecidableEq U] (f : U → V) (args : List U) (arg : U)
    (h : arg ∈ args) :
    ((Memoizer.new f).run args).valueInvokes arg = false ∧
    (((Memoizer.new f).run args).value arg).1 = f arg ∧
    List.Nodup ((Memoizer.new f).runTrace args) := by
  have hs : (mapLookup ((Memoizer.new f).run args).map arg).isSome = true :=
    mem_run_lookup_isSome (Memoizer.new f) args arg h
  obtain ⟨w, hw⟩ := Option.isSome_iff_exists.mp hs
  refine ⟨valueInvokes_of_lookup_some _ arg w hw, ?_, runTrace_nodup _ args⟩
  rw [value_hit _ arg w hw]
  have hinv : ((Memoizer.new f).run args).cacheInv :=
    run_cacheInv (Memoizer.new f) args (new_cacheInv f)
  have := lookup_cacheInv _ hinv arg w hw
  rw [this, run_function_eq]
  rfl

theorem claim_C1_witness :
    (2 : Nat) ∈ [2, 3] ∧
    (((Memoizer.new (fun n : Nat => n + 2)).run [2, 3]).valueInvokes 2 = false ∧
     (((Memoizer.new (fun n : Nat => n + 2)).run [2, 3]).value 2).1 = 2 + 2 ∧
     List.Nodup ((Memoizer.new (fun n : Nat => n + 2)).runTrace [2, 3])) :=
  ⟨by decide, claim_C1 (fun n : Nat => n + 2) [2, 3] 2 (by decide)⟩

/-- Claim C2: on a cache miss (`arg` absent from the map), `value arg` invokes
the wrapped function (exactly the one invocation `or_insert_with` performs),
stores `function arg` under a copy of `arg`, and the returned value equals the
value stored for `arg`. -/
theorem claim_C2 {U V : Type} [DecidableEq U] (m : Memoizer U V) (arg : U)
    (h : mapLookup m.map arg = none) :
    m.valueInvokes arg = true ∧
    (m.value arg).1 = m.function arg ∧
    ((m.value arg).2).map = (arg, m.function arg) :: m.map ∧
    mapLookup ((m.value arg).2).map arg = some ((m.value arg).1) :=
  ⟨valueInvokes_of_lookup_none m arg h,
   by rw [value_miss m arg h],
   by rw [value_miss m arg h],
   value_lookup_self m arg⟩

theorem claim_C2_witness :
    mapLookup (Memoizer.new (fun n : Nat => n + 2)).map 2 = none ∧
    ((Memoizer.new (fun n : Nat => n + 2)).valueInvokes 2 = true ∧
     ((Memoizer.new (fun n : Nat => n + 2)).value 2).1 =
       (Memoizer.new (fun n : Nat => n + 2)).function 2 ∧
     (((Memoizer.new (fun n : Nat => n + 2)).value 2).2).map =
       (2, (Memoizer.new (fun n : Nat => n + 2)).function 2) ::
         (Memoizer.new (fun n : Nat => n + 2)).map ∧
     mapLookup (((Memoizer.new (fun n : Nat => n + 2)).value 2).2).map 2 =
       some (((Memoizer.new (fun n : Nat => n + 2)).value 2).1)) :=
  ⟨rfl, claim_C2 (Memoizer.new (fun n : Nat => n + 2)) 2 rfl⟩

/-- Claim C3: in every state reachable from a fresh memoizer, every key
present in the map is stored with value `f k` (the wrapped function is a pure
Lean function, so this is the result computed when `k` was first inserted);
and the invariant is preserved by every single `value` call from any state
satisfying it. -/
theorem claim_C3 {U V : Type} [DecidableEq U] (f : U → V) (args : List U) (k : U) (w : V)
    (h : mapLookup ((Memoizer.new f).run args).map k = some w) :
    w = f k ∧
    (∀ (m : Memoizer U V) (a : U), m.cacheInv → ((m.value a).2).cacheInv) := by
  have hinv : ((Memoizer.new f).run args).cacheInv :=
    run_cacheInv (Memoizer.new f) args (new_cacheInv f)
  have hw := lookup_cacheInv _ hinv k w h
  rw [run_function_eq] at hw
  exact ⟨hw, fun m a hm => value_cacheInv m a hm⟩

theorem claim_C3_witness :
    mapLookup ((Memoizer.new (fun n : Nat => n + 2)).run [2, 3]).map 2 = some 4 ∧
    (4 : Nat) = 2 + 2 :=
  ⟨by decide, (claim_C3 (fun n : Nat => n + 2) [2, 3] 2 4 (by decide)).1⟩

/-- Claim C4: from any cache state, calling `value a` twice in succession
returns equal results, and the second call is a cache hit (it does not invoke
the wrapped function). -/
theorem claim_C4 {U V : Type} [DecidableEq U] (m : Memoizer U V) (a : U) :
    (((m.value a).2).value a).1 = (m.value a).1 ∧
    ((m.value a).2).valueInvokes a = false := by
  have hl := value_lookup_self m a
  exact ⟨by rw [value_hit _ a _ hl], valueInvokes_of_lookup_some _ a _ hl⟩

/-- Claim C5: the cache is append-only.  Every key-value pair present before a
`value` call is still present after it, and its binding is unchanged (lookups
of previously present keys give the same stored value); a cache hit leaves the
state entirely unmutated; a cache miss only conses one new entry onto the
map. -/
theorem claim_C5 {U V : Type} [DecidableEq U] (m : Memoizer U V) (a : U) :
    (∀ kv ∈ m.map, kv ∈ ((m.value a).2).map) ∧
    ((mapLookup m.map a).isSome = true → (m.value a).2 = m) ∧
    (mapLookup m.map a = none →
      ((m.value a).2).map = (a, m.function a) :: m.map) ∧
    (∀ (k : U) (w : V), mapLookup m.map k = some w →
      mapLookup ((m.value a).2).map k = some w) := by
  refine ⟨?_, ?_, ?_, fun k w hw => value_lookup_mono m a k w hw⟩
  · intro kv hkv
    cases hl : mapLookup m.map a with
    | some w => rw [value_hit m a w hl]; exact hkv
    | none => rw [value_miss m a hl]; exact List.mem_cons_of_mem _ hkv
  · intro hs
    obtain ⟨w, hw⟩ := Option.isSome_iff_exists.mp hs
    rw [value_hit m a w hw]
  · intro hl
    rw [value_miss m a hl]

theorem claim_C5_witness :
    (mapLookup (((Memoizer.new (fun n : Nat => n + 2)).value 2).2).map 2).isSome = true ∧
    ((((Memoizer.new (fun n : Nat => n + 2)).value 2).2).value 2).2 =
      ((Memoizer.new (fun n : Nat => n + 2)).value 2).2 :=
  ⟨by decide, (claim_C5 ((Memoizer.new (fun n : Nat => n + 2)).value 2).2 2).2.1 (by decide)⟩

/-- Claim C7: `new f` returns a memoizer holding `f` together with an empty
map.  `Memoizer.new` is a total function defined for every `f`, so
construction has no error conditions and cannot fail. -/
theorem claim_C7 {U V : Type} (f : U → V) :
    (Memoizer.new f).function = f ∧ (Memoizer.new f).map = [] :=
  ⟨rfl, rfl⟩

/-- Claim C8: for distinct arguments `a ≠ b`, first caching a result for `a`
does not change the result subsequently returned for `b`; and on its first
access (a miss) `b`'s result is computed by invoking the wrapped function on
`b`. -/
theorem claim_C8 {U V : Type} [DecidableEq U] (m : Memoizer U V) (a b : U) (h : a ≠ b) :
    (((m.value a).2).value b).1 = (m.value b).1 ∧
    (mapLookup m.map b = none → (m.value b).1 = m.function b) := by
  constructor
  · cases hl : mapLookup m.map a with
    | some w => rw [value_hit m a w hl]
    | none =>
      rw [value_miss m a hl]
      have hb : mapLookup ((a, m.function a) :: m.map) b = mapLookup m.map b := by
        rw [mapLookup, if_neg (fun hba => h hba.symm)]
      cases hlb : mapLookup m.map b with
      | some w =>
        rw [value_hit m b w hlb,
          value_hit { function := m.function, map := (a, m.function a) :: m.map } b w
            (by rw [show ({ function := m.function, map := (a, m.function a) :: m.map } :
              Memoizer U V).map = (a, m.function a) :: m.map from rfl, hb]; exact hlb)]
      | none =>
        rw [value_miss m b hlb,
          value_miss { function := m.function, map := (a, m.function a) :: m.map } b
            (by rw [show ({ function := m.function, map := (a, m.function a) :: m.map } :
              Memoizer U V).map = (a, m.function a) :: m.map from rfl, hb]; exact hlb)]
  · intro hlb
    rw [value_miss m b hlb]

theorem claim_C8_witness :
    (2 : Nat) ≠ 3 ∧
    (((((Memoizer.new (fun n : Nat => n + 2)).value 2).2).value 3).1 =
       ((Memoizer.new (fun n : Nat => n + 2)).value 3).1 ∧
     (mapLookup (Memoizer.new (fun n : Nat => n + 2)).map 3 = none →
       ((Memoizer.new (fun n : Nat => n + 2)).value 3).1 =
         (Memoizer.new (fun n : Nat => n + 2)).function 3)) :=
  ⟨by decide, claim_C8 (Memoizer.new (fun n : Nat => n + 2)) 2 3 (by decide)⟩

/-- Claim C9: concrete scenarios.  For `f n = n + 2`: `value 2 = 4`, a second
`value 2 = 4` without recomputation (the second call does not invoke `f`),
then `value 3 = 5`.  For `f s = s.length`: `value "gaygirls" = 8` and
`value "gay" = 3`. -/
theorem claim_C9 :
    ((Memoizer.new (fun n : Nat => n + 2)).value 2).1 = 4 ∧
    ((((Memoizer.new (fun n : Nat => n + 2)).value 2).2).value 2).1 = 4 ∧
    (((Memoizer.new (fun n : Nat => n + 2)).value 2).2).valueInvokes 2 = false ∧
    ((((((Memoizer.new (fun n : Nat => n + 2)).value 2).2).value 2).2).value 3).1 = 5 ∧
    ((Memoizer.new (fun s : String => s.length)).value "gaygirls").1 = 8 ∧
    ((((Memoizer.new (fun s : String => s.length)).value "gaygirls").2).value "gay").1 = 3 := by
  refine ⟨rfl, rfl, rfl, rfl, ?_, ?_⟩ <;> decide

/-- Claim C10: after any `value arg` call, `arg` is a key of the map and the
returned result is exactly the value now stored for `arg`; the map never
shrinks: its size is unchanged on a hit and grows by exactly one on a miss. -/
theorem claim_C10 {U V : Type} [DecidableEq U] (m : Memoizer U V) (arg : U) :
    mapLookup ((m.value arg).2).map arg = some ((m.value arg).1) ∧
    m.map.length ≤ ((m.value arg).2).map.length ∧
    ((mapLookup m.map arg).isSome = true →
      ((m.value arg).2).map.length = m.map.length) ∧
    (mapLookup m.map arg = none →
      ((m.value arg).2).map.length = m.map.length + 1) := by
  refine ⟨value_lookup_self m arg, ?_, ?_, ?_⟩
  · cases hl : mapLookup m.map arg with
    | some w => rw [value_hit m arg w hl]
    | none => rw [value_miss m arg hl]; exact Nat.le_succ _
  · intro hs
    obtain ⟨w, hw⟩ := Option.isSome_iff_exists.mp hs
    rw [value_hit m arg w hw]
  · intro hl
    rw [value_miss m arg hl]
    rfl

theorem claim_C10_witness :
    mapLookup (Memoizer.new (fun n : Nat => n + 2)).map 2 = none ∧
    (((Memoizer.new (fun n : Nat => n + 2)).value 2).2).map.length =
      (Memoizer.new (fun n : Nat => n + 2)).map.length + 1 :=
  ⟨rfl, (claim_C10 (Memoizer.new (fun n : Nat => n + 2)) 2).2.2.2 rfl⟩

theorem write_map_eq (m : HMemoizer) (a i x : Nat) : (m.write a i x).map = m.map := rfl

theorem write_readAddr_ne (m : HMemoizer) (a i x b : Nat) (h : a ≠ b) :
    (m.write a i x).readAddr b = m.readAddr b :=
  getD_set_of_ne m.heap a b ((m.heap.getD a []).set i x) [] h

theorem hvalue_hit_read (m : HMemoizer) (arg : List Nat) (addr : Nat)
    (h : mapLookup m.map arg = some addr) :
    ((m.value arg).2).readAddr ((m.value arg).1) = m.readAddr addr := by
  rw [hvalue_hit m arg addr h]
  exact getD_append_last m.heap (m.readAddr addr) []

theorem hvalue_miss_read (m : HMemoizer) (arg : List Nat)
    (h : mapLookup m.map arg = none) :
    ((m.value arg).2).readAddr ((m.value arg).1) = m.function arg := by
  rw [hvalue_miss m arg h]
  show ((m.heap ++ [m.function arg]) ++ [m.function arg]).getD (m.heap.length + 1) []
      = m.function arg
  have hlen : (m.heap ++ [m.function arg]).length = m.heap.length + 1 := by simp
  rw [← hlen]
  exact getD_append_last _ _ _

theorem hvalue_readAddr_lt (m : HMemoizer) (arg : List Nat) (b : Nat)
    (hb : b < m.heap.length) : ((m.value arg).2).readAddr b = m.readAddr b := by
  cases hl : mapLookup m.map arg with
  | some addr =>
    rw [hvalue_hit m arg addr hl]
    exact List.getD_append m.heap [m.readAddr addr] [] b hb
  | none =>
    rw [hvalue_miss m arg hl]
    show ((m.heap ++ [m.function arg]) ++ [m.function arg]).getD b [] = m.heap.getD b []
    rw [List.getD_append _ _ _ _
      (by simp only [List.length_append, List.length_singleton]; omega)]
    exact List.getD_append m.heap [m.function arg] [] b hb

/-- Claim C6: copy isolation of returned values, over the heap model.  From
any well-addressed state, call `value arg` obtaining a fresh buffer, mutate
that returned buffer in place at any index with any element; then a second
call with an equal argument still returns a buffer whose contents equal the
first call's original result, and no buffer owned by a cache entry is changed
by the caller's mutation of the returned buffer. -/
theorem claim_C6 (m : HMemoizer) (arg : List Nat) (i x : Nat)
    (hwf : ∀ kv ∈ m.map, kv.2 < m.heap.length) :
    (((((m.value arg).2).write ((m.value arg).1) i x).value arg).2).readAddr
        (((((m.value arg).2).write ((m.value arg).1) i x).value arg).1)
      = ((m.value arg).2).readAddr ((m.value arg).1) ∧
    ∀ kv ∈ ((m.value arg).2).map,
      ((((m.value arg).2).write ((m.value arg).1) i x)).readAddr kv.2
        = ((m.value arg).2).readAddr kv.2 := by
  cases hl : mapLookup m.map arg with
  | some addr =>
    have haddr : addr < m.heap.length := hwf (arg, addr) (mapLookup_mem m.map arg addr hl)
    have ha1 : (m.value arg).1 = m.heap.length := by rw [hvalue_hit m arg addr hl]
    have hm1map : ((m.value arg).2).map = m.map := by rw [hvalue_hit m arg addr hl]
    have h1 := hvalue_hit_read m arg addr hl
    have hm2lookup :
        mapLookup ((((m.value arg).2).write ((m.value arg).1) i x)).map arg = some addr := by
      rw [write_map_eq, hm1map]
      exact hl
    have h2 := hvalue_hit_read (((m.value arg).2).write ((m.value arg).1) i x) arg addr
      hm2lookup
    have h3 : ((((m.value arg).2).write ((m.value arg).1) i x)).readAddr addr
        = ((m.value arg).2).readAddr addr := by
      refine write_readAddr_ne _ _ i x _ ?_
      rw [ha1]
      omega
    have h4 : ((m.value arg).2).readAddr addr = m.readAddr addr :=
      hvalue_readAddr_lt m arg addr haddr
    refine ⟨by rw [h2, h3, h4, h1], ?_⟩
    intro kv hkv
    rw [hm1map] at hkv
    have hlt : kv.2 < m.heap.length := hwf kv hkv
    refine write_readAddr_ne _ _ i x _ ?_
    rw [ha1]
    omega
  | none =>
    have ha1 : (m.value arg).1 = m.heap.length + 1 := by rw [hvalue_miss m arg hl]
    have hm1map : ((m.value arg).2).map = (arg, m.heap.length) :: m.map := by
      rw [hvalue_miss m arg hl]
    have h1 := hvalue_miss_read m arg hl
    have hm2lookup :
        mapLookup ((((m.value arg).2).write ((m.value arg).1) i x)).map arg
          = some m.heap.length := by
      rw [write_map_eq, hm1map]
      exact mapLookup_cons_self arg m.heap.length m.map
    have h2 := hvalue_hit_read (((m.value arg).2).write ((m.value arg).1) i x) arg
      m.heap.length hm2lookup
    have h3 : ((((m.value arg).2).write ((m.value arg).1) i x)).readAddr m.heap.length
        = ((m.value arg).2).readAddr m.heap.length := by
      refine write_readAddr_ne _ _ i x _ ?_
      rw [ha1]
      omega
    have h4 : ((m.value arg).2).readAddr m.heap.length = m.function arg := by
      rw [hvalue_miss m arg hl]
      show ((m.heap ++ [m.function arg]) ++ [m.function arg]).getD m.heap.length []
          = m.function arg
      rw [List.getD_append _ _ _ _
        (by simp only [List.length_append, List.length_singleton]; omega)]
      exact getD_append_last m.heap (m.function arg) []
    refine ⟨by rw [h2, h3, h4, h1], ?_⟩
    intro kv hkv
    rw [hm1map] at hkv
    rcases List.mem_cons.mp hkv with hk | hk
    · subst hk
      refine write_readAddr_ne _ _ i x _ ?_
      rw [ha1]
      show m.heap.length + 1 ≠ m.heap.length
      omega
    · have hlt : kv.2 < m.heap.length := hwf kv hk
      refine write_readAddr_ne _ _ i x _ ?_
      rw [ha1]
      omega

theorem claim_C6_witness :
    (∀ kv ∈ heapTestMemo.map, kv.2 < heapTestMemo.heap.length) ∧
    ((((((heapTestMemo.value [1, 2, 3]).2).write ((heapTestMemo.value [1, 2, 3]).1) 0
          23).value [1, 2, 3]).2).readAddr
        (((((heapTestMemo.value [1, 2, 3]).2).write ((heapTestMemo.value [1, 2, 3]).1) 0
          23).value [1, 2, 3]).1)
       = ((heapTestMemo.value [1, 2, 3]).2).readAddr ((heapTestMemo.value [1, 2, 3]).1) ∧
     ∀ kv ∈ ((heapTestMemo.value [1, 2, 3]).2).map,
       ((((heapTestMemo.value [1, 2, 3]).2).write ((heapTestMemo.value [1, 2, 3]).1) 0
          23)).readAddr kv.2
         = ((heapTestMemo.value [1, 2, 3]).2).readAddr kv.2) ∧
    ((heapTestMemo.value [1, 2, 3]).2).readAddr ((heapTestMemo.value [1, 2, 3]).1)
      = [3, 2, 1, 1, 2, 3] :=
  ⟨by decide, claim_C6 heapTestMemo [1, 2, 3] 0 23 (by decide), by decide⟩
